import Mathlib

/-!
Shallow embedding of the txngo transactional key-value store (src/main.go).

Keys and byte slices are modelled as lists of naturals (byte values);
Go maps (string-keyed) are modelled as association lists; the write-ahead
log file is modelled by the list of bytes appended to it, together with an
oracle deciding the success of each wal.Write call and of wal.Sync.
Iteration order over a Go map is unspecified; the model iterates the
association list in list order, one fixed admissible order.
-/

/-- Action tags, Go constants `LInsert .. LAbort` (1 + iota). -/
def LInsert : Nat := 1

def LDelete : Nat := 2

def LUpdate : Nat := 3

def LRead : Nat := 4

def LCommit : Nat := 5

def LAbort : Nat := 6

/-- The error values the Go code can return.  `exist`, `notExist` and
`bufferShort` are the named errors; `ioErr` stands for any I/O error
returned by `wal.Write` / `wal.Sync`; `panicked` marks the `log.Panic`
on commit-marker serialization failure; `unexpected a` stands for the
`fmt.Errorf` unexpected-action errors (in `Read` and in `Commit`). -/
inductive Err where
  | exist
  | notExist
  | bufferShort
  | ioErr
  | panicked
  | unexpected (a : Nat)
  deriving DecidableEq

/-- Go `type Record struct { Key string; Value []byte }`. -/
structure Record where
  Key : List Nat
  Value : List Nat
  deriving DecidableEq

/-- Go `type RecordLog struct { Action uint8; Record }` (embedded record,
here the field `Rec`). -/
structure RecordLog where
  Action : Nat
  Rec : Record
  deriving DecidableEq

/-- `binary.BigEndian.PutUint32`: the four bytes of `n` mod 2^32, most
significant first. -/
def be32 (n : Nat) : List Nat :=
  [n / 2 ^ 24 % 256, n / 2 ^ 16 % 256, n / 2 ^ 8 % 256, n % 256]

/-- Go `(*Record).Serialize`: returns (error, resulting buffer, bytes
written).  Layout `key_len:u8 | value_len:u32 BE | key | value`; on a too
short buffer nothing is written. -/
def Record.Serialize (r : Record) (buf : List Nat) : Option Err × List Nat × Nat :=
  let total := 5 + r.Key.length + r.Value.length
  if buf.length < total then (some Err.bufferShort, buf, 0)
  else
    (none, (r.Key.length % 256 :: be32 r.Value.length) ++ r.Key ++ r.Value ++ buf.drop total,
      total)

/-- Go `(*Record).Deserialize`: returns (record, bytes consumed); needs a
5-byte header and `5 + key_len + value_len` available bytes. -/
def Record.Deserialize (buf : List Nat) : Except Err (Record × Nat) :=
  match buf with
  | b0 :: b1 :: b2 :: b3 :: b4 :: rest =>
    let valueLen := b1 * 2 ^ 24 + b2 * 2 ^ 16 + b3 * 2 ^ 8 + b4
    let total := 5 + b0 + valueLen
    if 5 + rest.length < total then Except.error Err.bufferShort
    else Except.ok (⟨rest.take b0, (rest.drop b0).take valueLen⟩, total)
  | _ => Except.error Err.bufferShort

/-- Go `(*RecordLog).Serialize`: tag byte only when `Action > LRead`
(the code comment says LCommit or LAbort), otherwise tag byte followed by
the record serialization; a nested failure leaves the buffer untouched. -/
def RecordLog.Serialize (r : RecordLog) (buf : List Nat) : Option Err × List Nat × Nat :=
  if buf.length < 1 then (some Err.bufferShort, buf, 0)
  else if LRead < r.Action then (none, r.Action :: buf.tail, 1)
  else
    match r.Rec.Serialize buf.tail with
    | (some e, _, _) => (some e, buf, 0)
    | (none, tail2, n) => (none, r.Action :: tail2, 1 + n)

/-- The byte string a successful `RecordLog.Serialize` deposits in the
buffer prefix (and hence the bytes `Commit` appends to the WAL for the
entry). -/
def RecordLog.encode (r : RecordLog) : List Nat :=
  if LRead < r.Action then [r.Action]
  else r.Action :: (r.Rec.Key.length % 256 :: be32 r.Rec.Value.length) ++ r.Rec.Key ++ r.Rec.Value

/-- Go map lookup `m[k]` on the association-list model. -/
def findRec {α : Type} : List (List Nat × α) → List Nat → Option α
  | [], _ => none
  | (k1, v) :: rest, k => if k1 = k then some v else findRec rest k

/-- Go map assignment `m[k] = v`: replace the binding if present, else add. -/
def setKV {α : Type} : List (List Nat × α) → List Nat → α → List (List Nat × α)
  | [], k, v => [(k, v)]
  | (k1, v1) :: rest, k, v => if k1 = k then (k, v) :: rest else (k1, v1) :: setKV rest k v

/-- Go map deletion `delete(m, k)`. -/
def delKV {α : Type} : List (List Nat × α) → List Nat → List (List Nat × α)
  | [], _ => []
  | (k1, v1) :: rest, k => if k1 = k then delKV rest k else (k1, v1) :: delKV rest k

/-- Go `type Txn struct { wal *os.File; db map[string]Record;
writeSet map[string]RecordLog }` — the wal handle is modelled outside the
state (appended bytes are an output of `Commit`, success decided by a
`WalOracle`). -/
structure Txn where
  db : List (List Nat × Record)
  writeSet : List (List Nat × RecordLog)
  deriving DecidableEq

/-- Go `NewTxn`: empty db, empty write-set. -/
def NewTxn : Txn := ⟨[], []⟩

/-- Go `(*Txn).Read`. -/
def Txn.Read (txn : Txn) (key : List Nat) : Except Err (List Nat) :=
  match findRec txn.writeSet key with
  | some r =>
    if r.Action = LDelete then Except.error Err.notExist
    else if r.Action = LInsert ∨ r.Action = LUpdate then Except.ok r.Rec.Value
    else Except.error (Err.unexpected r.Action)
  | none =>
    match findRec txn.db key with
    | some r => Except.ok r.Value
    | none => Except.error Err.notExist

/-- Go `(*Txn).Insert`: a pending non-Delete entry or a committed record is
a conflict; a pending Delete merges to an Update (stored under the pending
record's own Key field); otherwise a fresh pending Insert is created. -/
def Txn.Insert (txn : Txn) (key value : List Nat) : Except Err Unit × Txn :=
  match findRec txn.writeSet key with
  | some r =>
    if r.Action ≠ LDelete then (Except.error Err.exist, txn)
    else
      (Except.ok (),
        { txn with writeSet := setKV txn.writeSet r.Rec.Key ⟨LUpdate, ⟨r.Rec.Key, value⟩⟩ })
  | none =>
    match findRec txn.db key with
    | some _ => (Except.error Err.exist, txn)
    | none =>
      (Except.ok (), { txn with writeSet := setKV txn.writeSet key ⟨LInsert, ⟨key, value⟩⟩ })

/-- Go `(*Txn).Update`. -/
def Txn.Update (txn : Txn) (key value : List Nat) : Except Err Unit × Txn :=
  match findRec txn.writeSet key with
  | some r =>
    if r.Action = LDelete then (Except.error Err.notExist, txn)
    else
      (Except.ok (),
        { txn with writeSet := setKV txn.writeSet r.Rec.Key ⟨r.Action, ⟨r.Rec.Key, value⟩⟩ })
  | none =>
    match findRec txn.db key with
    | some r =>
      (Except.ok (), { txn with writeSet := setKV txn.writeSet r.Key ⟨LUpdate, ⟨r.Key, value⟩⟩ })
    | none => (Except.error Err.notExist, txn)

/-- Go `(*Txn).Delete`. -/
def Txn.Delete (txn : Txn) (key : List Nat) : Except Err Unit × Txn :=
  match findRec txn.writeSet key with
  | some r =>
    if r.Action = LDelete then (Except.error Err.notExist, txn)
    else if r.Action = LInsert then
      (Except.ok (), { txn with writeSet := delKV txn.writeSet key })
    else
      (Except.ok (),
        { txn with writeSet := setKV txn.writeSet r.Rec.Key ⟨LDelete, ⟨r.Rec.Key, []⟩⟩ })
  | none =>
    match findRec txn.db key with
    | some r =>
      (Except.ok (), { txn with writeSet := setKV txn.writeSet r.Key ⟨LDelete, ⟨r.Key, []⟩⟩ })
    | none => (Except.error Err.notExist, txn)

/-- Success oracle for the WAL file handle: `writeOk i` decides the i-th
`wal.Write` call inside one `Commit`, `syncOk` decides `wal.Sync`. -/
structure WalOracle where
  writeOk : Nat → Bool
  syncOk : Bool

/-- The `var buf [4096]byte` transmission buffer capacity in `Commit`. -/
def bufSize : Nat := 4096

/-- The bare commit-marker entry `RecordLog{Action: LCommit}`. -/
def commitMarker : RecordLog := ⟨LCommit, ⟨[], []⟩⟩

/-- The first loop of Go `(*Txn).Commit`: serialize each pending entry into
the (reused) transmission buffer and write `buf[:n]` to the WAL.  The
offset `i` in the Go code is never advanced, so every entry is serialized
at offset 0.  Returns (error, final buffer, bytes appended to the WAL,
next write index).  The bytes a failed `wal.Write` may have partially
written are not modelled (no claim depends on them). -/
def commitWrites (o : WalOracle) :
    Nat → List Nat → List (List Nat × RecordLog) → Option Err × List Nat × List Nat × Nat
  | idx, buf, [] => (none, buf, [], idx)
  | idx, buf, (_, r) :: rest =>
    match r.Serialize buf with
    | (e, buf1, n) =>
      if e = some Err.bufferShort then (some Err.bufferShort, buf1, [], idx)
      else if o.writeOk idx then
        match commitWrites o (idx + 1) buf1 rest with
        | (e2, buf2, bytes, idx2) => (e2, buf2, buf1.take n ++ bytes, idx2)
      else (some Err.ioErr, buf1, [], idx)

/-- The write-back loop of Go `(*Txn).Commit`: apply each pending entry to
db and remove it from the write-set; an action outside Insert/Update/Delete
aborts the loop, leaving the unprocessed suffix (current entry included)
in the write-set. -/
def commitApply :
    List (List Nat × Record) → List (List Nat × RecordLog) →
      Option Err × List (List Nat × Record) × List (List Nat × RecordLog)
  | db, [] => (none, db, [])
  | db, (k, rlog) :: rest =>
    if rlog.Action = LInsert then commitApply (setKV db rlog.Rec.Key rlog.Rec) rest
    else if rlog.Action = LUpdate then
      commitApply
        (setKV db rlog.Rec.Key ⟨((findRec db rlog.Rec.Key).getD ⟨[], []⟩).Key, rlog.Rec.Value⟩)
        rest
    else if rlog.Action = LDelete then commitApply (delKV db rlog.Rec.Key) rest
    else (some (Err.unexpected rlog.Action), db, (k, rlog) :: rest)

/-- Go `(*Txn).Commit`: returns (result, resulting engine state, bytes
appended to the WAL). -/
def Txn.Commit (txn : Txn) (o : WalOracle) : Except Err Unit × Txn × List Nat :=
  if txn.writeSet.length = 0 then (Except.ok (), txn, [])
  else
    match commitWrites o 0 (List.replicate bufSize 0) txn.writeSet with
    | (some e, _, bytes, _) => (Except.error e, txn, bytes)
    | (none, buf1, bytes, idx) =>
      match commitMarker.Serialize buf1 with
      | (some _, _, _) => (Except.error Err.panicked, txn, bytes)
      | (none, buf2, n) =>
        if o.writeOk idx then
          if o.syncOk then
            match commitApply txn.db txn.writeSet with
            | (none, db2, ws2) => (Except.ok (), ⟨db2, ws2⟩, bytes ++ buf2.take n)
            | (some e, db2, ws2) => (Except.error e, ⟨db2, ws2⟩, bytes ++ buf2.take n)
          else (Except.error Err.ioErr, txn, bytes ++ buf2.take n)
        else (Except.error Err.ioErr, txn, bytes)

/-- Go `(*Txn).Abort`: delete every write-set entry; no WAL write happens,
so the appended-bytes component is always empty. -/
def Txn.Abort (txn : Txn) : Txn × List Nat := ({ txn with writeSet := [] }, [])

/-- The engine states reachable from `NewTxn` by the transaction API
(`Read` does not change state). -/
inductive Reachable : Txn → Prop
  | init : Reachable NewTxn
  | insert (k v : List Nat) {t : Txn} : Reachable t → Reachable (t.Insert k v).2
  | update (k v : List Nat) {t : Txn} : Reachable t → Reachable (t.Update k v).2
  | delete (k : List Nat) {t : Txn} : Reachable t → Reachable (t.Delete k).2
  | commit (o : WalOracle) {t : Txn} : Reachable t → Reachable (t.Commit o).2.1
  | abort {t : Txn} : Reachable t → Reachable t.Abort.1

/-- Well-formedness of one write-set entry relative to a committed db:
its record's Key field equals its map key, its action is Insert, Delete or
Update, a pending Insert's key is absent from db, and a pending Update's
or Delete's key is present in db. -/
def WsProp (db : List (List Nat × Record)) (p : List Nat × RecordLog) : Prop :=
  (Prod.snd p).Rec.Key = Prod.fst p ∧
  ((Prod.snd p).Action = LInsert ∨ (Prod.snd p).Action = LDelete ∨
    (Prod.snd p).Action = LUpdate) ∧
  ((Prod.snd p).Action = LInsert → findRec db (Prod.fst p) = none) ∧
  (((Prod.snd p).Action = LUpdate ∨ (Prod.snd p).Action = LDelete) →
    (findRec db (Prod.fst p)).isSome = true)

/-- The engine-state invariant: both maps have no duplicate keys, every
committed record's Key field equals its map key, and every write-set entry
is well formed. -/
def TxnInv (t : Txn) : Prop :=
  (t.db.map Prod.fst).Nodup ∧
  (t.writeSet.map Prod.fst).Nodup ∧
  (∀ p ∈ t.db, (Prod.snd p).Key = Prod.fst p) ∧
  (∀ p ∈ t.writeSet, WsProp t.db p)

/-! ### Association-list lemmas -/

theorem findRec_setKV_self {α : Type} (m : List (List Nat × α)) (k : List Nat) (v : α) :
    findRec (setKV m k v) k = some v := by
  induction m with
  | nil => simp [setKV, findRec]
  | cons p rest ih =>
    obtain ⟨k1, v1⟩ := p
    by_cases h : k1 = k
    · simp [setKV, h, findRec]
    · simp [setKV, h, findRec, ih]

theorem findRec_setKV_ne {α : Type} (m : List (List Nat × α)) (k k2 : List Nat) (v : α)
    (h : k2 ≠ k) : findRec (setKV m k v) k2 = findRec m k2 := by
  induction m with
  | nil => simp [setKV, findRec, if_neg (Ne.symm h)]
  | cons p rest ih =>
    obtain ⟨k1, v1⟩ := p
    by_cases h1 : k1 = k
    · subst h1
      simp [setKV, findRec, if_neg (Ne.symm h)]
    · simp only [setKV, if_neg h1, findRec]
      by_cases h2 : k1 = k2 <;> simp [h2, ih]

theorem findRec_delKV_self {α : Type} (m : List (List Nat × α)) (k : List Nat) :
    findRec (delKV m k) k = none := by
  induction m with
  | nil => simp [delKV, findRec]
  | cons p rest ih =>
    obtain ⟨k1, v1⟩ := p
    by_cases h : k1 = k <;> simp [delKV, h, findRec, ih]

theorem findRec_delKV_ne {α : Type} (m : List (List Nat × α)) (k k2 : List Nat)
    (h : k2 ≠ k) : findRec (delKV m k) k2 = findRec m k2 := by
  induction m with
  | nil => simp [delKV]
  | cons p rest ih =>
    obtain ⟨k1, v1⟩ := p
    by_cases h1 : k1 = k
    · subst h1
      simp [delKV, findRec, if_neg (Ne.symm h), ih]
    · simp only [delKV, if_neg h1, findRec]
      by_cases h2 : k1 = k2 <;> simp [h2, ih]

theorem mem_setKV {α : Type} {m : List (List Nat × α)} {k : List Nat} {v : α}
    {p : List Nat × α} (h : p ∈ setKV m k v) : p ∈ m ∨ p = (k, v) := by
  induction m with
  | nil =>
    simp only [setKV, List.mem_singleton] at h
    exact Or.inr h
  | cons q rest ih =>
    obtain ⟨k1, v1⟩ := q
    by_cases h1 : k1 = k
    · simp only [setKV, if_pos h1, List.mem_cons] at h
      rcases h with h | h
      · right; exact h
      · left; exact List.mem_cons_of_mem _ h
    · simp only [setKV, if_neg h1, List.mem_cons] at h
      rcases h with h | h
      · left; simp [h]
      · rcases ih h with h2 | h2
        · left; exact List.mem_cons_of_mem _ h2
        · right; exact h2

theorem mem_delKV {α : Type} {m : List (List Nat × α)} {k : List Nat}
    {p : List Nat × α} (h : p ∈ delKV m k) : p ∈ m := by
  induction m with
  | nil => simp [delKV] at h
  | cons q rest ih =>
    obtain ⟨k1, v1⟩ := q
    by_cases h1 : k1 = k
    · simp only [delKV, if_pos h1] at h
      exact List.mem_cons_of_mem _ (ih h)
    · simp only [delKV, if_neg h1, List.mem_cons] at h
      rcases h with h | h
      · simp [h]
      · exact List.mem_cons_of_mem _ (ih h)

theorem keys_setKV_mem {α : Type} {m : List (List Nat × α)} {k q : List Nat} {v : α}
    (h : q ∈ (setKV m k v).map Prod.fst) : q ∈ m.map Prod.fst ∨ q = k := by
  rcases List.mem_map.1 h with ⟨p, hp, hq⟩
  rcases mem_setKV hp with h2 | h2
  · left; exact List.mem_map.2 ⟨p, h2, hq⟩
  · right; rw [h2] at hq; exact hq.symm

theorem keys_setKV_nodup {α : Type} {m : List (List Nat × α)} (k : List Nat) (v : α)
    (h : (m.map Prod.fst).Nodup) : ((setKV m k v).map Prod.fst).Nodup := by
  induction m with
  | nil => simp [setKV]
  | cons p rest ih =>
    obtain ⟨k1, v1⟩ := p
    simp only [List.map_cons, List.nodup_cons] at h
    by_cases h1 : k1 = k
    · subst h1
      show ((if k1 = k1 then (k1, v) :: rest else (k1, v1) :: setKV rest k1 v).map
        Prod.fst).Nodup
      rw [if_pos rfl]
      simpa using h
    · simp only [setKV, if_neg h1, List.map_cons, List.nodup_cons]
      refine ⟨fun hmem => ?_, ih h.2⟩
      rcases keys_setKV_mem hmem with h2 | h2
      · exact h.1 h2
      · exact h1 h2

theorem keys_delKV_mem {α : Type} {m : List (List Nat × α)} {k q : List Nat}
    (h : q ∈ (delKV m k).map Prod.fst) : q ∈ m.map Prod.fst := by
  rcases List.mem_map.1 h with ⟨p, hp, hq⟩
  exact List.mem_map.2 ⟨p, mem_delKV hp, hq⟩

theorem keys_delKV_nodup {α : Type} {m : List (List Nat × α)} (k : List Nat)
    (h : (m.map Prod.fst).Nodup) : ((delKV m k).map Prod.fst).Nodup := by
  induction m with
  | nil => simp [delKV]
  | cons p rest ih =>
    obtain ⟨k1, v1⟩ := p
    simp only [List.map_cons, List.nodup_cons] at h
    by_cases h1 : k1 = k
    · simp only [delKV, if_pos h1]
      exact ih h.2
    · simp only [delKV, if_neg h1, List.map_cons, List.nodup_cons]
      exact ⟨fun hmem => h.1 (keys_delKV_mem hmem), ih h.2⟩

theorem findRec_some_mem {α : Type} {m : List (List Nat × α)} {k : List Nat} {v : α}
    (h : findRec m k = some v) : (k, v) ∈ m := by
  induction m with
  | nil => simp [findRec] at h
  | cons p rest ih =>
    obtain ⟨k1, v1⟩ := p
    by_cases h1 : k1 = k
    · subst h1
      have h2 : (if k1 = k1 then some v1 else findRec rest k1) = some v := h
      rw [if_pos rfl] at h2
      cases h2
      exact List.mem_cons_self _ _
    · simp only [findRec, if_neg h1] at h
      exact List.mem_cons_of_mem _ (ih h)

theorem findRec_eq_none {α : Type} {m : List (List Nat × α)} {k : List Nat}
    (h : k ∉ m.map Prod.fst) : findRec m k = none := by
  induction m with
  | nil => simp [findRec]
  | cons p rest ih =>
    obtain ⟨k1, v1⟩ := p
    simp only [List.map_cons, List.mem_cons, not_or] at h
    have h1 : ¬ k1 = k := fun h2 => h.1 h2.symm
    simp only [findRec, if_neg h1]
    exact ih h.2

/-! ### Serialization lemmas -/

theorem take_append_len {α : Type} (xs ys : List α) : (xs ++ ys).take xs.length = xs := by
  induction xs with
  | nil => simp
  | cons a rest ih => simp [ih]

theorem drop_append_len {α : Type} (xs ys : List α) : (xs ++ ys).drop xs.length = ys := by
  induction xs with
  | nil => simp
  | cons a rest ih => simp [ih]

theorem be32_roundtrip (n : Nat) :
    n / 2 ^ 24 % 256 * 2 ^ 24 + n / 2 ^ 16 % 256 * 2 ^ 16 + n / 2 ^ 8 % 256 * 2 ^ 8 + n % 256 =
      n % 2 ^ 32 := by
  omega


/-- `Record.Serialize` fails only with `bufferShort`. -/
theorem recSerialize_err (r : Record) (buf : List Nat) :
    (r.Serialize buf).1 = none ∨ (r.Serialize buf).1 = some Err.bufferShort := by
  unfold Record.Serialize
  by_cases h : buf.length < 5 + r.Key.length + r.Value.length
  · simp [h]
  · simp [h]

/-- Inversion of a successful `Record.Serialize`. -/
theorem Record.serialize_ok {r : Record} {buf buf2 : List Nat} {n : Nat}
    (h : r.Serialize buf = (none, buf2, n)) :
    buf2 = (r.Key.length % 256 :: be32 r.Value.length) ++ r.Key ++ r.Value ++
        buf.drop (5 + r.Key.length + r.Value.length) ∧
      n = 5 + r.Key.length + r.Value.length ∧
      ¬ buf.length < 5 + r.Key.length + r.Value.length := by
  unfold Record.Serialize at h
  by_cases hl : buf.length < 5 + r.Key.length + r.Value.length
  · simp [hl] at h
  · simp only [if_neg hl, Prod.mk.injEq] at h
    exact ⟨h.2.1.symm, h.2.2.symm, hl⟩

/-- `RecordLog.Serialize` fails only with `bufferShort`. -/
theorem logSerialize_err (r : RecordLog) (buf : List Nat) :
    (r.Serialize buf).1 = none ∨ (r.Serialize buf).1 = some Err.bufferShort := by
  by_cases h1 : buf.length < 1
  · simp [RecordLog.Serialize, h1]
  · by_cases h2 : LRead < r.Action
    · simp [RecordLog.Serialize, h1, h2]
    · have hr := recSerialize_err r.Rec buf.tail
      rcases hs : r.Rec.Serialize buf.tail with ⟨e, tail2, n0⟩
      rw [hs] at hr
      simp only [RecordLog.Serialize, if_neg h1, if_neg h2, hs]
      rcases hr with hr | hr <;> simp_all

/-- A successful `RecordLog.Serialize` leaves exactly `r.encode` in the
first `n` buffer bytes. -/
theorem RecordLog.serialize_take {r : RecordLog} {buf buf2 : List Nat} {n : Nat}
    (h : r.Serialize buf = (none, buf2, n)) : buf2.take n = r.encode := by
  by_cases h1 : buf.length < 1
  · simp [RecordLog.Serialize, h1] at h
  · by_cases h2 : LRead < r.Action
    · simp only [RecordLog.Serialize, if_neg h1, if_pos h2, Prod.mk.injEq] at h
      rw [← h.2.1, ← h.2.2]
      simp [RecordLog.encode, h2, List.take_succ_cons]
    · rcases hs : r.Rec.Serialize buf.tail with ⟨e, tail2, n0⟩
      simp only [RecordLog.Serialize, if_neg h1, if_neg h2, hs] at h
      cases e with
      | some e2 => simp at h
      | none =>
        simp only [Prod.mk.injEq] at h
        obtain ⟨hb, hn⟩ := h.2
        obtain ⟨ht2, hn0, hfit⟩ := Record.serialize_ok hs
        subst hb hn ht2 hn0
        have hlen :
            ((r.Rec.Key.length % 256 :: be32 r.Rec.Value.length) ++ r.Rec.Key ++
              r.Rec.Value).length = 5 + r.Rec.Key.length + r.Rec.Value.length := by
          simp [be32]
          omega
        calc (r.Action ::
              ((r.Rec.Key.length % 256 :: be32 r.Rec.Value.length) ++ r.Rec.Key ++ r.Rec.Value ++
                buf.tail.drop (5 + r.Rec.Key.length + r.Rec.Value.length))).take
              (1 + (5 + r.Rec.Key.length + r.Rec.Value.length))
            = r.Action ::
              (((r.Rec.Key.length % 256 :: be32 r.Rec.Value.length) ++ r.Rec.Key ++ r.Rec.Value) ++
                buf.tail.drop (5 + r.Rec.Key.length + r.Rec.Value.length)).take
                (5 + r.Rec.Key.length + r.Rec.Value.length) := by
              rw [Nat.add_comm 1]
              simp [List.take_succ_cons, List.append_assoc]
          _ = r.Action ::
              ((r.Rec.Key.length % 256 :: be32 r.Rec.Value.length) ++ r.Rec.Key ++ r.Rec.Value) := by
              rw [← hlen, take_append_len]
          _ = r.encode := by
              simp [RecordLog.encode, h2]

/-- C3: for a record whose key fits in a byte and whose value length fits
in a u32, serializing into a large-enough buffer and deserializing the
result gives back the record, and both byte counts are
`5 + len(key) + len(value)`. -/
theorem record_serialize_roundtrip (r : Record) (buf : List Nat)
    (hk : r.Key.length ≤ 255) (hv : r.Value.length ≤ 4294967295)
    (hb : 5 + r.Key.length + r.Value.length ≤ buf.length) :
    (r.Serialize buf).1 = none ∧
    (r.Serialize buf).2.2 = 5 + r.Key.length + r.Value.length ∧
    Record.Deserialize (r.Serialize buf).2.1 =
      Except.ok (r, 5 + r.Key.length + r.Value.length) := by
  obtain ⟨key, value⟩ := r
  simp only at hk hv hb ⊢
  have hnl : ¬ buf.length < 5 + key.length + value.length := by omega
  simp only [Record.Serialize, if_neg hnl]
  refine ⟨trivial, trivial, ?_⟩
  have hshape : ((⟨key, value⟩ : Record).Key.length % 256 ::
      be32 (⟨key, value⟩ : Record).Value.length) ++ (⟨key, value⟩ : Record).Key ++
      (⟨key, value⟩ : Record).Value ++ buf.drop (5 + key.length + value.length) =
      key.length % 256 :: value.length / 2 ^ 24 % 256 :: value.length / 2 ^ 16 % 256 ::
        value.length / 2 ^ 8 % 256 :: value.length % 256 ::
        (key ++ (value ++ buf.drop (5 + key.length + value.length))) := by
    simp [be32]
  rw [hshape]
  have hkl : key.length % 256 = key.length := Nat.mod_eq_of_lt (by omega)
  have hvl : value.length / 2 ^ 24 % 256 * 2 ^ 24 + value.length / 2 ^ 16 % 256 * 2 ^ 16 +
      value.length / 2 ^ 8 % 256 * 2 ^ 8 + value.length % 256 = value.length := by
    rw [be32_roundtrip]
    exact Nat.mod_eq_of_lt (by omega)
  simp only [Record.Deserialize, hkl, hvl]
  have hrest : ¬ 5 + (key ++ (value ++ buf.drop (5 + key.length + value.length))).length <
      5 + key.length + value.length := by
    simp only [List.length_append]
    omega
  rw [if_neg hrest]
  rw [take_append_len, drop_append_len, take_append_len]

/-- C3 witness: a concrete round trip. -/
theorem record_serialize_roundtrip_w :
    (Record.Serialize ⟨[7], [8, 9]⟩ (List.replicate 8 0)).1 = none ∧
    (Record.Serialize ⟨[7], [8, 9]⟩ (List.replicate 8 0)).2.2 =
      5 + ([7] : List Nat).length + ([8, 9] : List Nat).length ∧
    Record.Deserialize (Record.Serialize ⟨[7], [8, 9]⟩ (List.replicate 8 0)).2.1 =
      Except.ok (⟨[7], [8, 9]⟩, 5 + ([7] : List Nat).length + ([8, 9] : List Nat).length) :=
  record_serialize_roundtrip ⟨[7], [8, 9]⟩ (List.replicate 8 0) (by decide) (by decide)
    (by decide)

/-- C5 counterexample: the claim says every action tag at or above 4 —
Read included — serializes as the single tag byte with bytes_written 1;
but the code only takes the tag-only branch for tags strictly above
`LRead = 4`, so a Read entry is serialized with its record payload:
6 bytes for an empty record, not 1. -/
theorem log_serialize_readTag_cex :
    RecordLog.Serialize ⟨LRead, ⟨[], []⟩⟩ (List.replicate 6 0) =
      (none, [LRead, 0, 0, 0, 0, 0], 6) ∧ (6 : Nat) ≠ 1 := by
  constructor
  · rfl
  · decide

/-- C5 amended: for every entry whose action tag is strictly above
`LRead = 4` (so `LCommit`, `LAbort` and anything larger), serializing into
a buffer of length at least 1 writes only the tag byte and returns
bytes_written 1. -/
theorem log_serialize_tag_only (r : RecordLog) (buf : List Nat)
    (ha : LRead < r.Action) (hb : 1 ≤ buf.length) :
    r.Serialize buf = (none, r.Action :: buf.tail, 1) := by
  have h1 : ¬ buf.length < 1 := by omega
  simp [RecordLog.Serialize, h1, ha]

/-- C5 amended witness: serializing a bare Commit entry. -/
theorem log_serialize_tag_only_w :
    RecordLog.Serialize ⟨LCommit, ⟨[], []⟩⟩ [9, 9] = (none, [LCommit, 9], 1) :=
  log_serialize_tag_only ⟨LCommit, ⟨[], []⟩⟩ [9, 9] (by decide) (by decide)

/-- C8: serializing into a buffer shorter than `5 + len(key) + len(value)`
fails with `bufferShort` leaving the buffer unchanged (and writing 0
bytes); deserializing fails with `bufferShort` when fewer than 5 bytes are
available, or when the header-declared total exceeds the buffer length. -/
theorem record_buffer_short (r : Record) (buf : List Nat) :
    (buf.length < 5 + r.Key.length + r.Value.length →
      r.Serialize buf = (some Err.bufferShort, buf, 0)) ∧
    (buf.length < 5 → Record.Deserialize buf = Except.error Err.bufferShort) ∧
    (∀ b0 b1 b2 b3 b4 rest, buf = b0 :: b1 :: b2 :: b3 :: b4 :: rest →
      buf.length < 5 + b0 + (b1 * 2 ^ 24 + b2 * 2 ^ 16 + b3 * 2 ^ 8 + b4) →
      Record.Deserialize buf = Except.error Err.bufferShort) := by
  refine ⟨fun h => ?_, fun h => ?_, fun b0 b1 b2 b3 b4 rest hsh hlt => ?_⟩
  · simp [Record.Serialize, h]
  · rcases buf with _ | ⟨a, _ | ⟨b, _ | ⟨c, _ | ⟨d, _ | ⟨e, rest⟩⟩⟩⟩⟩
    · rfl
    · rfl
    · rfl
    · rfl
    · rfl
    · exfalso
      simp only [List.length_cons] at h
      omega
  · subst hsh
    have hlt2 : 5 + rest.length < 5 + b0 + (b1 * 2 ^ 24 + b2 * 2 ^ 16 + b3 * 2 ^ 8 + b4) := by
      simp only [List.length_cons] at hlt
      omega
    simp only [Record.Deserialize]
    rw [if_pos hlt2]

/-- C8 witness: concrete short-buffer failures. -/
theorem record_buffer_short_w :
    Record.Serialize ⟨[1], [2, 3]⟩ [0, 0, 0] = (some Err.bufferShort, [0, 0, 0], 0) ∧
    Record.Deserialize [0, 0, 0] = Except.error Err.bufferShort ∧
    Record.Deserialize [3, 0, 0, 0, 0] = Except.error Err.bufferShort :=
  ⟨(record_buffer_short ⟨[1], [2, 3]⟩ [0, 0, 0]).1 (by decide),
    (record_buffer_short ⟨[], []⟩ [0, 0, 0]).2.1 (by decide),
    (record_buffer_short ⟨[], []⟩ [3, 0, 0, 0, 0]).2.2 3 0 0 0 0 [] rfl (by decide)⟩

/-! ### The commit write-back loop on invariant-respecting states -/

theorem commitApply_spec (ws : List (List Nat × RecordLog)) :
    ∀ db : List (List Nat × Record),
    (db.map Prod.fst).Nodup →
    (∀ p ∈ db, (Prod.snd p).Key = Prod.fst p) →
    (ws.map Prod.fst).Nodup →
    (∀ p ∈ ws, WsProp db p) →
    ∃ db2, commitApply db ws = (none, db2, []) ∧
      (db2.map Prod.fst).Nodup ∧
      (∀ p ∈ db2, (Prod.snd p).Key = Prod.fst p) ∧
      ∀ k, findRec db2 k =
        match findRec ws k with
        | some r => if r.Action = LDelete then none else some r.Rec
        | none => findRec db k := by
  induction ws with
  | nil =>
    intro db hdbn hdbk _ _
    exact ⟨db, rfl, hdbn, hdbk, fun k => by simp [findRec]⟩
  | cons p rest ih =>
    intro db hdbn hdbk hwsn hws
    obtain ⟨k0, a0, rk, rv⟩ := p
    obtain ⟨hkey, hact, hins, hpres⟩ := hws _ (List.mem_cons_self _ _)
    simp only [WsProp] at hkey hact hins hpres
    simp only [List.map_cons, List.nodup_cons] at hwsn
    obtain ⟨hk0nin, hrestn⟩ := hwsn
    cases hkey
    have key_step : ∀ db1 : List (List Nat × Record),
        commitApply db ((k0, ⟨a0, ⟨k0, rv⟩⟩) :: rest) = commitApply db1 rest →
        (db1.map Prod.fst).Nodup →
        (∀ p ∈ db1, (Prod.snd p).Key = Prod.fst p) →
        (∀ q, q ≠ k0 → findRec db1 q = findRec db q) →
        findRec db1 k0 = (if a0 = LDelete then none else some ⟨k0, rv⟩) →
        ∃ db2, commitApply db ((k0, ⟨a0, ⟨k0, rv⟩⟩) :: rest) = (none, db2, []) ∧
          (db2.map Prod.fst).Nodup ∧
          (∀ p ∈ db2, (Prod.snd p).Key = Prod.fst p) ∧
          ∀ k, findRec db2 k =
            match findRec ((k0, ⟨a0, ⟨k0, rv⟩⟩) :: rest) k with
            | some r => if r.Action = LDelete then none else some r.Rec
            | none => findRec db k := by
      intro db1 hstep hn1 hk1 hne hk0f
      have hrest : ∀ p ∈ rest, WsProp db1 p := by
        intro p hp
        obtain ⟨h1, h2, h3, h4⟩ := hws p (List.mem_cons_of_mem _ hp)
        have hpne : Prod.fst p ≠ k0 := by
          intro he
          exact hk0nin (he ▸ List.mem_map.2 ⟨p, hp, rfl⟩)
        refine ⟨h1, h2, fun hi => ?_, fun hud => ?_⟩
        · rw [hne _ hpne]
          exact h3 hi
        · rw [hne _ hpne]
          exact h4 hud
      obtain ⟨db2, happ, hn2, hk2, hchar⟩ := ih db1 hn1 hk1 hrestn hrest
      refine ⟨db2, ?_, hn2, hk2, ?_⟩
      · rw [hstep]
        exact happ
      · intro k
        by_cases hk : k0 = k
        · subst hk
          have hnone : findRec rest k0 = none := findRec_eq_none hk0nin
          have hh := hchar k0
          rw [hnone] at hh
          have hcons : findRec ((k0, (⟨a0, ⟨k0, rv⟩⟩ : RecordLog)) :: rest) k0 =
              some ⟨a0, ⟨k0, rv⟩⟩ := by
            simp [findRec]
          rw [hcons]
          show findRec db2 k0 = if a0 = LDelete then none else some ⟨k0, rv⟩
          rw [hh]
          exact hk0f
        · have hcons : findRec ((k0, (⟨a0, ⟨k0, rv⟩⟩ : RecordLog)) :: rest) k =
              findRec rest k := by
            simp [findRec, hk]
          rw [hcons]
          have hh := hchar k
          rcases hf : findRec rest k with _ | r2
          · rw [hf] at hh
            show findRec db2 k = findRec db k
            rw [hh]
            exact hne k (fun he => hk he.symm)
          · rw [hf] at hh
            exact hh
    rcases hact with ha | ha | ha
    · -- pending Insert
      cases ha
      refine key_step (setKV db k0 ⟨k0, rv⟩) ?_ (keys_setKV_nodup k0 _ hdbn) ?_
        (fun q hq => findRec_setKV_ne db k0 q _ hq) ?_
      · show (if (⟨LInsert, ⟨k0, rv⟩⟩ : RecordLog).Action = LInsert then
            commitApply (setKV db (⟨LInsert, (⟨k0, rv⟩ : Record)⟩ : RecordLog).Rec.Key
              (⟨LInsert, ⟨k0, rv⟩⟩ : RecordLog).Rec) rest
          else _) = commitApply (setKV db k0 ⟨k0, rv⟩) rest
        rw [if_pos rfl]
      · intro p hp
        rcases mem_setKV hp with h | h
        · exact hdbk p h
        · subst h
          rfl
      · rw [if_neg (by decide), findRec_setKV_self]
    · -- pending Delete
      cases ha
      refine key_step (delKV db k0) ?_ (keys_delKV_nodup k0 hdbn) ?_
        (fun q hq => findRec_delKV_ne db k0 q hq) ?_
      · show (if (⟨LDelete, ⟨k0, rv⟩⟩ : RecordLog).Action = LInsert then _
          else if (⟨LDelete, ⟨k0, rv⟩⟩ : RecordLog).Action = LUpdate then _
          else if (⟨LDelete, ⟨k0, rv⟩⟩ : RecordLog).Action = LDelete then
            commitApply (delKV db (⟨LDelete, (⟨k0, rv⟩ : Record)⟩ : RecordLog).Rec.Key) rest
          else _) = commitApply (delKV db k0) rest
        rw [if_neg (show ¬LDelete = LInsert by decide),
          if_neg (show ¬LDelete = LUpdate by decide), if_pos rfl]
      · intro p hp
        exact hdbk p (mem_delKV hp)
      · rw [if_pos rfl, findRec_delKV_self]
    · -- pending Update
      cases ha
      obtain ⟨old, hold⟩ := Option.isSome_iff_exists.mp (hpres (Or.inl rfl))
      have holdkey : old.Key = k0 := hdbk (k0, old) (findRec_some_mem hold)
      refine key_step (setKV db k0 ⟨k0, rv⟩) ?_ (keys_setKV_nodup k0 _ hdbn) ?_
        (fun q hq => findRec_setKV_ne db k0 q _ hq) ?_
      · show (if (⟨LUpdate, ⟨k0, rv⟩⟩ : RecordLog).Action = LInsert then _
          else if (⟨LUpdate, ⟨k0, rv⟩⟩ : RecordLog).Action = LUpdate then
            commitApply (setKV db (⟨LUpdate, (⟨k0, rv⟩ : Record)⟩ : RecordLog).Rec.Key
              ⟨((findRec db (⟨LUpdate, (⟨k0, rv⟩ : Record)⟩ : RecordLog).Rec.Key).getD
                  ⟨[], []⟩).Key,
                (⟨LUpdate, (⟨k0, rv⟩ : Record)⟩ : RecordLog).Rec.Value⟩) rest
          else _) = commitApply (setKV db k0 ⟨k0, rv⟩) rest
        rw [if_neg (show ¬LUpdate = LInsert by decide), if_pos rfl]
        show commitApply (setKV db k0 ⟨((findRec db k0).getD ⟨[], []⟩).Key, rv⟩) rest = _
        rw [hold]
        show commitApply (setKV db k0 ⟨old.Key, rv⟩) rest = _
        rw [holdkey]
      · intro p hp
        rcases mem_setKV hp with h | h
        · exact hdbk p h
        · subst h
          rfl
      · rw [if_neg (by decide), findRec_setKV_self]

/-- The write-back loop fails only with an unexpected-action error. -/
theorem commitApply_err {ws : List (List Nat × RecordLog)} :
    ∀ {db : List (List Nat × Record)} {e : Err},
    (commitApply db ws).1 = some e → ∃ a, e = Err.unexpected a := by
  induction ws with
  | nil =>
    intro db e h
    simp [commitApply] at h
  | cons p rest ih =>
    intro db e h
    obtain ⟨k0, rlog⟩ := p
    simp only [commitApply] at h
    split at h
    · exact ih h
    · split at h
      · exact ih h
      · split at h
        · exact ih h
        · simp only [Option.some.injEq] at h
          exact ⟨rlog.Action, h.symm⟩

/-- The serialize-and-append loop fails only with `bufferShort` (an entry
does not fit the transmission buffer) or an I/O error from `wal.Write`. -/
theorem commitWrites_err (o : WalOracle) (ws : List (List Nat × RecordLog)) :
    ∀ idx buf e buf2 bytes idx2,
    commitWrites o idx buf ws = (some e, buf2, bytes, idx2) →
    e = Err.bufferShort ∨ e = Err.ioErr := by
  induction ws with
  | nil =>
    intro idx buf e buf2 bytes idx2 h
    simp [commitWrites] at h
  | cons p rest ih =>
    intro idx buf e buf2 bytes idx2 h
    obtain ⟨k0, r⟩ := p
    rcases hs : r.Serialize buf with ⟨e0, buf1, n⟩
    simp only [commitWrites, hs] at h
    by_cases hbs : e0 = some Err.bufferShort
    · rw [if_pos hbs] at h
      simp only [Prod.mk.injEq] at h
      left
      exact (Option.some.inj h.1).symm
    · rw [if_neg hbs] at h
      by_cases hw : o.writeOk idx
      · rw [if_pos hw] at h
        rcases hrec : commitWrites o (idx + 1) buf1 rest with ⟨e2, b2, bts, i2⟩
        rw [hrec] at h
        simp only [Prod.mk.injEq] at h
        obtain ⟨he2, -, -, -⟩ := h
        exact ih (idx + 1) buf1 e b2 bts i2 (he2 ▸ hrec)
      · rw [if_neg hw] at h
        simp only [Prod.mk.injEq] at h
        right
        exact (Option.some.inj h.1).symm

/-- On a fully successful serialize-and-append loop, the bytes appended to
the WAL are exactly the concatenated encodings of the write-set entries in
iteration order. -/
theorem commitWrites_ok_bytes (o : WalOracle) (ws : List (List Nat × RecordLog)) :
    ∀ idx buf buf2 bytes idx2,
    commitWrites o idx buf ws = (none, buf2, bytes, idx2) →
    bytes = (ws.map fun p => RecordLog.encode (Prod.snd p)).flatten := by
  induction ws with
  | nil =>
    intro idx buf buf2 bytes idx2 h
    simp only [commitWrites, Prod.mk.injEq] at h
    obtain ⟨-, -, hb, -⟩ := h
    simp [← hb]
  | cons p rest ih =>
    intro idx buf buf2 bytes idx2 h
    obtain ⟨k0, r⟩ := p
    rcases hs : r.Serialize buf with ⟨e0, buf1, n⟩
    simp only [commitWrites, hs] at h
    by_cases hbs : e0 = some Err.bufferShort
    · rw [if_pos hbs] at h
      simp at h
    · rw [if_neg hbs] at h
      by_cases hw : o.writeOk idx
      · rw [if_pos hw] at h
        rcases hrec : commitWrites o (idx + 1) buf1 rest with ⟨e2, b2, bts, i2⟩
        rw [hrec] at h
        simp only [Prod.mk.injEq] at h
        obtain ⟨he2, -, hby, -⟩ := h
        have he0 : e0 = none := by
          rcases logSerialize_err r buf with he | he <;> rw [hs] at he
          · exact he
          · exact absurd he hbs
        subst he0
        have htake : buf1.take n = r.encode := RecordLog.serialize_take hs
        rw [← hby, htake, ih (idx + 1) buf1 b2 bts i2 (he2 ▸ hrec)]
        simp
      · rw [if_neg hw] at h
        simp at h

/-- Exhaustive case analysis of `Txn.Commit`: either the write-set was
empty and nothing happened; or it failed before the write-back loop with
`bufferShort`, an I/O error, or the marker panic, leaving the state
untouched; or every WAL step succeeded and the result is decided by the
write-back loop. -/
theorem commit_cases (t : Txn) (o : WalOracle) :
    (t.writeSet = [] ∧ t.Commit o = (Except.ok (), t, [])) ∨
    (∃ e bytes, t.Commit o = (Except.error e, t, bytes) ∧
      (e = Err.bufferShort ∨ e = Err.ioErr ∨ e = Err.panicked)) ∨
    (t.writeSet ≠ [] ∧ ∃ buf1 ebytes idx buf2 n ae db2 ws2,
      commitWrites o 0 (List.replicate bufSize 0) t.writeSet = (none, buf1, ebytes, idx) ∧
      commitMarker.Serialize buf1 = (none, buf2, n) ∧
      o.writeOk idx = true ∧ o.syncOk = true ∧
      commitApply t.db t.writeSet = (ae, db2, ws2) ∧
      t.Commit o = ((match ae with
        | none => Except.ok ()
        | some e => Except.error e), ⟨db2, ws2⟩, ebytes ++ buf2.take n)) := by
  by_cases hemp : t.writeSet.length = 0
  · left
    refine ⟨List.length_eq_zero.mp hemp, ?_⟩
    simp [Txn.Commit, hemp]
  · have hne : t.writeSet ≠ [] := by
      intro hnil
      exact hemp (by rw [hnil]; rfl)
    rcases hcw : commitWrites o 0 (List.replicate bufSize 0) t.writeSet with ⟨e0, buf1, ebytes, idx⟩
    cases e0 with
    | some e =>
      right; left
      refine ⟨e, ebytes, ?_, ?_⟩
      · simp only [Txn.Commit, if_neg hemp, hcw]
      · rcases commitWrites_err o t.writeSet 0 _ e buf1 ebytes idx hcw with h | h
        · exact Or.inl h
        · exact Or.inr (Or.inl h)
    | none =>
      rcases hm : commitMarker.Serialize buf1 with ⟨me, buf2, n⟩
      cases me with
      | some e2 =>
        right; left
        exact ⟨Err.panicked, ebytes, by simp only [Txn.Commit, if_neg hemp, hcw, hm],
          Or.inr (Or.inr rfl)⟩
      | none =>
        by_cases hwk : o.writeOk idx
        · by_cases hsy : o.syncOk
          · right; right
            rcases hap : commitApply t.db t.writeSet with ⟨ae, db2, ws2⟩
            refine ⟨hne, buf1, ebytes, idx, buf2, n, ae, db2, ws2, rfl, hm, hwk, hsy, rfl, ?_⟩
            cases ae with
            | none => simp only [Txn.Commit, if_neg hemp, hcw, hm, if_pos hwk, if_pos hsy, hap]
            | some e3 => simp only [Txn.Commit, if_neg hemp, hcw, hm, if_pos hwk, if_pos hsy, hap]
          · right; left
            refine ⟨Err.ioErr, ebytes ++ buf2.take n, ?_, Or.inr (Or.inl rfl)⟩
            simp only [Txn.Commit, if_neg hemp, hcw, hm, if_pos hwk, if_neg hsy]
        · right; left
          refine ⟨Err.ioErr, ebytes, ?_, Or.inr (Or.inl rfl)⟩
          simp only [Txn.Commit, if_neg hemp, hcw, hm, if_neg hwk]

/-! ### The invariant holds in every reachable state -/

theorem inv_init : TxnInv NewTxn :=
  ⟨List.nodup_nil, List.nodup_nil,
    by intro p hp; simp [NewTxn] at hp,
    by intro p hp; simp [NewTxn] at hp⟩

theorem inv_insert (t : Txn) (k v : List Nat) (h : TxnInv t) : TxnInv (t.Insert k v).2 := by
  obtain ⟨hdbn, hwsn, hdbk, hws⟩ := h
  rcases hf : findRec t.writeSet k with _ | r
  · rcases hfd : findRec t.db k with _ | rec
    · simp only [Txn.Insert, hf, hfd]
      refine ⟨hdbn, keys_setKV_nodup k _ hwsn, hdbk, ?_⟩
      intro p hp
      rcases mem_setKV hp with hmem | hmem
      · exact hws p hmem
      · subst hmem
        refine ⟨rfl, Or.inl rfl, fun _ => hfd, fun hud => ?_⟩
        rcases hud with hud | hud <;> simp [LInsert, LUpdate, LDelete] at hud
    · simp only [Txn.Insert, hf, hfd]
      exact ⟨hdbn, hwsn, hdbk, hws⟩
  · by_cases ha : r.Action = LDelete
    · obtain ⟨hkey, -, -, hpres⟩ := hws (k, r) (findRec_some_mem hf)
      simp only [Txn.Insert, hf, if_neg (not_not_intro ha)]
      rw [show r.Rec.Key = k from hkey]
      refine ⟨hdbn, keys_setKV_nodup k _ hwsn, hdbk, ?_⟩
      intro p hp
      rcases mem_setKV hp with hmem | hmem
      · exact hws p hmem
      · subst hmem
        refine ⟨rfl, Or.inr (Or.inr rfl), fun hi => ?_, fun _ => ?_⟩
        · simp [LUpdate, LInsert] at hi
        · exact hpres (Or.inr ha)
    · simp only [Txn.Insert, hf, if_pos ha]
      exact ⟨hdbn, hwsn, hdbk, hws⟩

theorem inv_update (t : Txn) (k v : List Nat) (h : TxnInv t) : TxnInv (t.Update k v).2 := by
  obtain ⟨hdbn, hwsn, hdbk, hws⟩ := h
  rcases hf : findRec t.writeSet k with _ | r
  · rcases hfd : findRec t.db k with _ | rec
    · simp only [Txn.Update, hf, hfd]
      exact ⟨hdbn, hwsn, hdbk, hws⟩
    · have hreckey : rec.Key = k := hdbk (k, rec) (findRec_some_mem hfd)
      simp only [Txn.Update, hf, hfd]
      rw [hreckey]
      refine ⟨hdbn, keys_setKV_nodup k _ hwsn, hdbk, ?_⟩
      intro p hp
      rcases mem_setKV hp with hmem | hmem
      · exact hws p hmem
      · subst hmem
        refine ⟨rfl, Or.inr (Or.inr rfl), fun hi => ?_, fun _ => ?_⟩
        · simp [LUpdate, LInsert] at hi
        · simp [hfd]
  · by_cases ha : r.Action = LDelete
    · simp only [Txn.Update, hf, if_pos ha]
      exact ⟨hdbn, hwsn, hdbk, hws⟩
    · obtain ⟨hkey, hact, hins, hpres⟩ := hws (k, r) (findRec_some_mem hf)
      simp only [Txn.Update, hf, if_neg ha]
      rw [show r.Rec.Key = k from hkey]
      refine ⟨hdbn, keys_setKV_nodup k _ hwsn, hdbk, ?_⟩
      intro p hp
      rcases mem_setKV hp with hmem | hmem
      · exact hws p hmem
      · subst hmem
        exact ⟨rfl, hact, hins, hpres⟩

theorem inv_delete (t : Txn) (k : List Nat) (h : TxnInv t) : TxnInv (t.Delete k).2 := by
  obtain ⟨hdbn, hwsn, hdbk, hws⟩ := h
  rcases hf : findRec t.writeSet k with _ | r
  · rcases hfd : findRec t.db k with _ | rec
    · simp only [Txn.Delete, hf, hfd]
      exact ⟨hdbn, hwsn, hdbk, hws⟩
    · have hreckey : rec.Key = k := hdbk (k, rec) (findRec_some_mem hfd)
      simp only [Txn.Delete, hf, hfd]
      rw [hreckey]
      refine ⟨hdbn, keys_setKV_nodup k _ hwsn, hdbk, ?_⟩
      intro p hp
      rcases mem_setKV hp with hmem | hmem
      · exact hws p hmem
      · subst hmem
        refine ⟨rfl, Or.inr (Or.inl rfl), fun hi => ?_, fun _ => ?_⟩
        · simp [LDelete, LInsert] at hi
        · simp [hfd]
  · by_cases ha : r.Action = LDelete
    · simp only [Txn.Delete, hf, if_pos ha]
      exact ⟨hdbn, hwsn, hdbk, hws⟩
    · by_cases ha2 : r.Action = LInsert
      · simp only [Txn.Delete, hf, if_neg ha, if_pos ha2]
        refine ⟨hdbn, keys_delKV_nodup k hwsn, hdbk, ?_⟩
        intro p hp
        exact hws p (mem_delKV hp)
      · obtain ⟨hkey, hact, -, hpres⟩ := hws (k, r) (findRec_some_mem hf)
        have ha3 : r.Action = LUpdate := by
          rcases hact with h1 | h1 | h1
          · exact absurd h1 ha2
          · exact absurd h1 ha
          · exact h1
        simp only [Txn.Delete, hf, if_neg ha, if_neg ha2]
        rw [show r.Rec.Key = k from hkey]
        refine ⟨hdbn, keys_setKV_nodup k _ hwsn, hdbk, ?_⟩
        intro p hp
        rcases mem_setKV hp with hmem | hmem
        · exact hws p hmem
        · subst hmem
          refine ⟨rfl, Or.inr (Or.inl rfl), fun hi => ?_, fun _ => ?_⟩
          · simp [LDelete, LInsert] at hi
          · exact hpres (Or.inl ha3)

theorem inv_commit (t : Txn) (o : WalOracle) (h : TxnInv t) : TxnInv (t.Commit o).2.1 := by
  obtain ⟨hdbn, hwsn, hdbk, hws⟩ := h
  rcases commit_cases t o with ⟨hemp, heq⟩ | ⟨e, bytes, heq, hcase⟩ |
    ⟨hne, buf1, ebytes, idx, buf2, n, ae, db2, ws2, hcw, hm, hwk, hsy, hap, heq⟩
  · rw [heq]
    exact ⟨hdbn, hwsn, hdbk, hws⟩
  · rw [heq]
    exact ⟨hdbn, hwsn, hdbk, hws⟩
  · obtain ⟨db2s, happ, hn2, hk2, hchar⟩ := commitApply_spec t.writeSet t.db hdbn hdbk hwsn hws
    rw [happ] at hap
    simp only [Prod.mk.injEq] at hap
    obtain ⟨hae, hdb2, hws2⟩ := hap
    rw [heq]
    subst hdb2 hws2
    refine ⟨hn2, List.nodup_nil, hk2, ?_⟩
    intro p hp
    simp at hp

theorem inv_abort (t : Txn) (h : TxnInv t) : TxnInv t.Abort.1 := by
  obtain ⟨hdbn, -, hdbk, -⟩ := h
  refine ⟨hdbn, List.nodup_nil, hdbk, ?_⟩
  intro p hp
  simp [Txn.Abort] at hp

/-- Every reachable engine state satisfies the invariant. -/
theorem reachable_inv : ∀ {t : Txn}, Reachable t → TxnInv t := by
  intro t h
  induction h with
  | init => exact inv_init
  | insert k v _ ih => exact inv_insert _ k v ih
  | update k v _ ih => exact inv_update _ k v ih
  | delete k _ ih => exact inv_delete _ k ih
  | commit o _ ih => exact inv_commit _ o ih
  | abort _ ih => exact inv_abort _ ih

/-! ### Concrete states and oracles used by the witnesses -/

/-- Oracle on which every WAL write and the sync succeed. -/
def okOracle : WalOracle := ⟨fun _ => true, true⟩

/-- Oracle on which writes succeed but the sync fails. -/
def badSyncOracle : WalOracle := ⟨fun _ => true, false⟩

def t1ex : Txn := (NewTxn.Insert [1] [10]).2

def t2ex : Txn := (t1ex.Commit okOracle).2.1

def t3ex : Txn := (t2ex.Delete [1]).2

theorem t1ex_reach : Reachable t1ex := Reachable.insert [1] [10] Reachable.init

theorem t2ex_reach : Reachable t2ex := Reachable.commit okOracle t1ex_reach

theorem t3ex_reach : Reachable t3ex := Reachable.delete [1] t2ex_reach

/-! ### The claims about the transaction engine -/

/-- C1: on every reachable engine state, a Commit that returns success
leaves a committed db equal to the prior db with every pending entry
applied — Insert/Update store the pending record under its key, Delete
removes the key, and every other key is unchanged — and an empty
write-set; in particular Commit on an empty write-set succeeds and leaves
the whole state unchanged. -/
theorem commit_applies_writeSet (t : Txn) (o : WalOracle) (ht : Reachable t) :
    (t.writeSet = [] → t.Commit o = (Except.ok (), t, [])) ∧
    (∀ t2 bytes, t.Commit o = (Except.ok (), t2, bytes) →
      t2.writeSet = [] ∧
      ∀ k, findRec t2.db k =
        match findRec t.writeSet k with
        | some r => if r.Action = LDelete then none else some r.Rec
        | none => findRec t.db k) := by
  obtain ⟨hdbn, hwsn, hdbk, hws⟩ := reachable_inv ht
  constructor
  · intro hnil
    have h0 : t.writeSet.length = 0 := by rw [hnil]; rfl
    simp [Txn.Commit, h0]
  · intro t2 bytes heq
    rcases commit_cases t o with ⟨hemp, heq2⟩ | ⟨e, bts, heq2, -⟩ |
      ⟨hne, buf1, ebytes, idx, buf2, n, ae, db2, ws2, hcw, hm, hwk, hsy, hap, heq2⟩
    · rw [heq2] at heq
      simp only [Prod.mk.injEq] at heq
      obtain ⟨-, ht2, -⟩ := heq
      subst ht2
      refine ⟨hemp, fun k => ?_⟩
      have hnone : findRec t.writeSet k = none := by rw [hemp]; rfl
      rw [hnone]
    · rw [heq2] at heq
      simp at heq
    · obtain ⟨db2s, happ, hn2, hk2, hchar⟩ := commitApply_spec t.writeSet t.db hdbn hdbk hwsn hws
      rw [happ] at hap
      simp only [Prod.mk.injEq] at hap
      obtain ⟨hae, hdb2, hws2⟩ := hap
      subst hae hdb2 hws2
      rw [heq2] at heq
      simp only [Prod.mk.injEq] at heq
      obtain ⟨-, ht2, -⟩ := heq
      subst ht2
      exact ⟨rfl, hchar⟩

/-- C2: whenever Commit returns `bufferShort` (a pending entry does not
fit the transmission buffer) or an I/O error (a WAL append or the sync
failed), the engine state — committed db and write-set — is exactly as it
was before the call: nothing is applied and nothing is discarded. -/
theorem commit_failure_atomic (t : Txn) (o : WalOracle) (e : Err)
    (h : (t.Commit o).1 = Except.error e) (he : e = Err.bufferShort ∨ e = Err.ioErr) :
    (t.Commit o).2.1 = t := by
  rcases commit_cases t o with ⟨-, heq⟩ | ⟨e2, bts, heq, -⟩ |
    ⟨-, buf1, ebytes, idx, buf2, n, ae, db2, ws2, hcw, hm, hwk, hsy, hap, heq⟩
  · rw [heq] at h
    simp at h
  · rw [heq]
  · cases ae with
    | none =>
      rw [heq] at h
      simp at h
    | some e3 =>
      obtain ⟨a, ha⟩ := commitApply_err (show (commitApply t.db t.writeSet).1 = some e3 by
        rw [hap])
      rw [heq] at h
      have h2 : Except.error e3 = Except.error e := h
      injection h2 with h3
      subst h3
      subst ha
      rcases he with he | he <;> simp at he

/-- C4: a successful Commit of a non-empty write-set appends to the WAL
exactly the concatenated serializations of the pending entries, one per
write-set entry in iteration order, followed by the single commit-marker
byte 5; Abort appends nothing, and Commit of an empty write-set appends
nothing. -/
theorem commit_wal_bytes (t : Txn) (o : WalOracle) :
    (∀ t2 bytes, t.writeSet ≠ [] → t.Commit o = (Except.ok (), t2, bytes) →
      bytes = (t.writeSet.map fun p => RecordLog.encode (Prod.snd p)).flatten ++ [5]) ∧
    t.Abort.2 = [] ∧
    (t.writeSet = [] → t.Commit o = (Except.ok (), t, [])) := by
  refine ⟨?_, rfl, ?_⟩
  · intro t2 bytes hne heq
    rcases commit_cases t o with ⟨hemp, -⟩ | ⟨e, bts, heq2, -⟩ |
      ⟨-, buf1, ebytes, idx, buf2, n, ae, db2, ws2, hcw, hm, hwk, hsy, hap, heq2⟩
    · exact absurd hemp hne
    · rw [heq2] at heq
      simp at heq
    · cases ae with
      | some e3 =>
        rw [heq2] at heq
        simp only [Prod.mk.injEq] at heq
        have h2 : Except.error e3 = Except.ok () := heq.1
        simp at h2
      | none =>
        rw [heq2] at heq
        simp only [Prod.mk.injEq] at heq
        obtain ⟨-, -, hbytes⟩ := heq
        rw [← hbytes, commitWrites_ok_bytes o t.writeSet 0 _ buf1 ebytes idx hcw,
          RecordLog.serialize_take hm]
        rfl
  · intro hnil
    have h0 : t.writeSet.length = 0 := by rw [hnil]; rfl
    simp [Txn.Commit, h0]


/-! ### Cheap symbolic evaluation of one concrete commit (the 4096-byte
transmission buffer is never traversed element by element). -/

theorem drop_replicate_nat (m : Nat) : ∀ (n : Nat) (a : Nat),
    (List.replicate n a).drop m = List.replicate (n - m) a := by
  induction m with
  | zero => intro n a; simp
  | succ m ih =>
    intro n a
    cases n with
    | zero => simp
    | succ n =>
      rw [List.replicate_succ]
      show (List.replicate n a).drop m = _
      rw [ih n a, Nat.succ_sub_succ]

theorem replicate_bufSize_cons : List.replicate bufSize (0 : Nat) = 0 :: List.replicate 4095 0 :=
  rfl

theorem logSerialize_cons_tag (r : RecordLog) (b : Nat) (tl : List Nat)
    (ha : LRead < r.Action) :
    r.Serialize (b :: tl) = (none, r.Action :: tl, 1) := by
  simp only [RecordLog.Serialize, List.length_cons, List.tail_cons]
  rw [if_neg (by omega), if_pos ha]

theorem logSerialize_cons_payload (r : RecordLog) (b : Nat) (tl tl2 : List Nat) (n : Nat)
    (ha : ¬ LRead < r.Action) (hs : r.Rec.Serialize tl = (none, tl2, n)) :
    r.Serialize (b :: tl) = (none, r.Action :: tl2, 1 + n) := by
  simp only [RecordLog.Serialize, List.length_cons, List.tail_cons, hs]
  rw [if_neg (by omega), if_neg ha]

theorem commitWrites_cons (o : WalOracle) (idx : Nat) (buf buf1 : List Nat) (n : Nat)
    (k : List Nat) (r : RecordLog) (rest : List (List Nat × RecordLog))
    (hs : r.Serialize buf = (none, buf1, n)) (hw : o.writeOk idx = true) :
    commitWrites o idx buf ((k, r) :: rest) =
      ((commitWrites o (idx + 1) buf1 rest).1, (commitWrites o (idx + 1) buf1 rest).2.1,
        buf1.take n ++ (commitWrites o (idx + 1) buf1 rest).2.2.1,
        (commitWrites o (idx + 1) buf1 rest).2.2.2) := by
  simp only [commitWrites, hs]
  rw [if_neg (by decide), if_pos hw]

theorem commit_unfold_ok (t : Txn) (o : WalOracle) (buf1 ebytes buf2 : List Nat)
    (idx n : Nat) (db2 : List (List Nat × Record)) (ws2 : List (List Nat × RecordLog))
    (hlen : ¬ t.writeSet.length = 0)
    (hcw : commitWrites o 0 (List.replicate bufSize 0) t.writeSet = (none, buf1, ebytes, idx))
    (hm : commitMarker.Serialize buf1 = (none, buf2, n))
    (hwk : o.writeOk idx = true) (hsy : o.syncOk = true)
    (hap : commitApply t.db t.writeSet = (none, db2, ws2)) :
    t.Commit o = (Except.ok (), ⟨db2, ws2⟩, ebytes ++ buf2.take n) := by
  simp only [Txn.Commit, hcw, hm, hap]
  rw [if_neg hlen, if_pos hwk, if_pos hsy]

theorem commit_unfold_syncFail (t : Txn) (o : WalOracle) (buf1 ebytes buf2 : List Nat)
    (idx n : Nat)
    (hlen : ¬ t.writeSet.length = 0)
    (hcw : commitWrites o 0 (List.replicate bufSize 0) t.writeSet = (none, buf1, ebytes, idx))
    (hm : commitMarker.Serialize buf1 = (none, buf2, n))
    (hwk : o.writeOk idx = true) (hsy : o.syncOk = false) :
    t.Commit o = (Except.error Err.ioErr, t, ebytes ++ buf2.take n) := by
  simp only [Txn.Commit, hcw, hm]
  rw [if_neg hlen, if_pos hwk, if_neg (show ¬ o.syncOk = true by rw [hsy]; decide)]

theorem ser1 : RecordLog.Serialize ⟨LInsert, ⟨[1], [10]⟩⟩ (List.replicate bufSize 0) =
    (none, 1 :: 1 :: 0 :: 0 :: 0 :: 1 :: 1 :: 10 :: List.replicate 4088 0, 8) := by
  rw [replicate_bufSize_cons]
  have hrec : Record.Serialize ⟨[1], [10]⟩ (List.replicate 4095 0) =
      (none, 1 :: 0 :: 0 :: 0 :: 1 :: 1 :: 10 :: List.replicate 4088 0, 7) := by
    simp only [Record.Serialize, List.length_replicate]
    rw [if_neg (by decide), drop_replicate_nat]
    rfl
  rw [logSerialize_cons_payload ⟨LInsert, ⟨[1], [10]⟩⟩ 0 (List.replicate 4095 0) _ 7
    (by decide) hrec]
  rfl

theorem cw1 (o : WalOracle) (h0 : o.writeOk 0 = true) :
    commitWrites o 0 (List.replicate bufSize 0) [([1], ⟨LInsert, ⟨[1], [10]⟩⟩)] =
      (none, 1 :: 1 :: 0 :: 0 :: 0 :: 1 :: 1 :: 10 :: List.replicate 4088 0,
        [1, 1, 0, 0, 0, 1, 1, 10], 1) := by
  rw [commitWrites_cons o 0 (List.replicate bufSize 0) _ 8 [1] ⟨LInsert, ⟨[1], [10]⟩⟩ []
    ser1 h0]
  rfl

theorem mk1 : commitMarker.Serialize
      (1 :: 1 :: 0 :: 0 :: 0 :: 1 :: 1 :: 10 :: List.replicate 4088 0) =
    (none, 5 :: 1 :: 0 :: 0 :: 0 :: 1 :: 1 :: 10 :: List.replicate 4088 0, 1) := by
  rw [logSerialize_cons_tag commitMarker 1 (1 :: 0 :: 0 :: 0 :: 1 :: 1 :: 10 ::
    List.replicate 4088 0) (by decide)]
  rfl

theorem t1ex_commit_eval : t1ex.Commit okOracle =
    (Except.ok (), ⟨[([1], ⟨[1], [10]⟩)], []⟩, [1, 1, 0, 0, 0, 1, 1, 10, 5]) := by
  have hcw : commitWrites okOracle 0 (List.replicate bufSize 0) t1ex.writeSet =
      (none, 1 :: 1 :: 0 :: 0 :: 0 :: 1 :: 1 :: 10 :: List.replicate 4088 0,
        [1, 1, 0, 0, 0, 1, 1, 10], 1) := cw1 okOracle rfl
  have hap : commitApply t1ex.db t1ex.writeSet = (none, [([1], ⟨[1], [10]⟩)], []) := rfl
  rw [commit_unfold_ok t1ex okOracle _ _ _ _ _ _ _ (by decide) hcw mk1 rfl rfl hap]
  rfl

theorem t1ex_commit_bad_eval : t1ex.Commit badSyncOracle =
    (Except.error Err.ioErr, t1ex, [1, 1, 0, 0, 0, 1, 1, 10, 5]) := by
  have hcw : commitWrites badSyncOracle 0 (List.replicate bufSize 0) t1ex.writeSet =
      (none, 1 :: 1 :: 0 :: 0 :: 0 :: 1 :: 1 :: 10 :: List.replicate 4088 0,
        [1, 1, 0, 0, 0, 1, 1, 10], 1) := cw1 badSyncOracle rfl
  rw [commit_unfold_syncFail t1ex badSyncOracle _ _ _ _ _ (by decide) hcw mk1 rfl rfl]
  rfl

theorem t2ex_eval : t2ex = ⟨[([1], ⟨[1], [10]⟩)], []⟩ := by
  show (t1ex.Commit okOracle).2.1 = _
  rw [t1ex_commit_eval]

theorem t3ex_eval : t3ex = ⟨[([1], ⟨[1], [10]⟩)], [([1], ⟨LDelete, ⟨[1], []⟩⟩)]⟩ := by
  show (t2ex.Delete [1]).2 = _
  rw [t2ex_eval]
  rfl

/-- C1 witness: committing a single pending Insert of key [1]. -/
theorem commit_applies_writeSet_w :
    ((⟨[([1], ⟨[1], [10]⟩)], []⟩ : Txn)).writeSet = [] ∧
    findRec ((⟨[([1], ⟨[1], [10]⟩)], []⟩ : Txn)).db [1] =
      (match findRec t1ex.writeSet [1] with
        | some r => if r.Action = LDelete then none else some r.Rec
        | none => findRec t1ex.db [1]) := by
  have h := (commit_applies_writeSet t1ex okOracle t1ex_reach).2
    ⟨[([1], ⟨[1], [10]⟩)], []⟩ [1, 1, 0, 0, 0, 1, 1, 10, 5] t1ex_commit_eval
  exact ⟨h.1, h.2 [1]⟩

/-- C2 witness: a sync failure leaves the state untouched. -/
theorem commit_failure_atomic_w : (t1ex.Commit badSyncOracle).2.1 = t1ex :=
  commit_failure_atomic t1ex badSyncOracle Err.ioErr
    (by rw [t1ex_commit_bad_eval]) (Or.inr rfl)

/-- C4 witness: the WAL bytes of the commit of a single Insert. -/
theorem commit_wal_bytes_w :
    [1, 1, 0, 0, 0, 1, 1, 10, 5] =
      (t1ex.writeSet.map fun p => RecordLog.encode (Prod.snd p)).flatten ++ [5] :=
  (commit_wal_bytes t1ex okOracle).1 ⟨[([1], ⟨[1], [10]⟩)], []⟩
    [1, 1, 0, 0, 0, 1, 1, 10, 5] (by decide) t1ex_commit_eval

/-- C6: on every reachable state, Insert on a key whose pending action is
Delete succeeds and replaces that entry by a pending Update carrying the
new value (not a pending Insert), touching no other pending key and not
the db; Insert on a key with any other pending action fails with
AlreadyExists and changes nothing. -/
theorem insert_pending_merge (t : Txn) (k v : List Nat) (r : RecordLog)
    (ht : Reachable t) (hf : findRec t.writeSet k = some r) :
    (r.Action = LDelete →
      (t.Insert k v).1 = Except.ok () ∧
      findRec (t.Insert k v).2.writeSet k = some ⟨LUpdate, ⟨k, v⟩⟩ ∧
      (∀ q, q ≠ k → findRec (t.Insert k v).2.writeSet q = findRec t.writeSet q) ∧
      (t.Insert k v).2.db = t.db) ∧
    (r.Action ≠ LDelete → t.Insert k v = (Except.error Err.exist, t)) := by
  obtain ⟨-, -, -, hws⟩ := reachable_inv ht
  obtain ⟨hkey, -, -, -⟩ := hws (k, r) (findRec_some_mem hf)
  have hkey2 : r.Rec.Key = k := hkey
  constructor
  · intro ha
    simp only [Txn.Insert, hf, if_neg (not_not_intro ha), hkey2]
    exact ⟨trivial, findRec_setKV_self _ _ _, fun q hq => findRec_setKV_ne _ _ _ _ hq, trivial⟩
  · intro ha
    simp only [Txn.Insert, hf, if_pos ha]

/-- C6 witness: inserting over the pending Delete of key [1]. -/
theorem insert_pending_merge_w :
    (t3ex.Insert [1] [20]).1 = Except.ok () ∧
    findRec (t3ex.Insert [1] [20]).2.writeSet [1] = some ⟨LUpdate, ⟨[1], [20]⟩⟩ := by
  have hf : findRec t3ex.writeSet [1] = some ⟨LDelete, ⟨[1], []⟩⟩ := by
    rw [t3ex_eval]
    rfl
  have h := (insert_pending_merge t3ex [1] [20] ⟨LDelete, ⟨[1], []⟩⟩ t3ex_reach hf).1 rfl
  exact ⟨h.1, h.2.1⟩

/-- C7: Delete on a key whose pending action is Insert succeeds and
removes the pending entry entirely (the write-set becomes the old one
with the key deleted, so no log entry can be written for it), leaves the
committed db untouched, and a subsequent Read of the key fails with
NotFound when the key is absent from the committed db. -/
theorem delete_pending_insert (t : Txn) (k : List Nat) (r : RecordLog)
    (hf : findRec t.writeSet k = some r) (ha : r.Action = LInsert) :
    t.Delete k = (Except.ok (), { t with writeSet := delKV t.writeSet k }) ∧
    findRec (t.Delete k).2.writeSet k = none ∧
    (t.Delete k).2.db = t.db ∧
    (findRec t.db k = none → (t.Delete k).2.Read k = Except.error Err.notExist) := by
  have hnd : ¬ r.Action = LDelete := by rw [ha]; decide
  have heq : t.Delete k = (Except.ok (), { t with writeSet := delKV t.writeSet k }) := by
    simp only [Txn.Delete, hf, if_neg hnd, if_pos ha]
  refine ⟨heq, ?_, ?_, ?_⟩
  · rw [heq]
    exact findRec_delKV_self _ _
  · rw [heq]
  · intro hdb
    rw [heq]
    simp only [Txn.Read, findRec_delKV_self, hdb]

/-- C7 witness: deleting the pending Insert of key [1]. -/
theorem delete_pending_insert_w :
    t1ex.Delete [1] = (Except.ok (), { t1ex with writeSet := delKV t1ex.writeSet [1] }) ∧
    findRec (t1ex.Delete [1]).2.writeSet [1] = none ∧
    (t1ex.Delete [1]).2.db = t1ex.db ∧
    (t1ex.Delete [1]).2.Read [1] = Except.error Err.notExist := by
  have h := delete_pending_insert t1ex [1] ⟨LInsert, ⟨[1], [10]⟩⟩ rfl rfl
  exact ⟨h.1, h.2.1, h.2.2.1, h.2.2.2 rfl⟩

/-- C9: in every reachable engine state, every write-set entry's action is
Insert, Delete or Update; consequently Read never returns the
unexpected-action error and Commit never returns the unexpected-action
error of its write-back loop. -/
theorem writeSet_actions_valid (t : Txn) (ht : Reachable t) :
    (∀ p ∈ t.writeSet, (Prod.snd p).Action = LInsert ∨ (Prod.snd p).Action = LDelete ∨
      (Prod.snd p).Action = LUpdate) ∧
    (∀ k a, t.Read k ≠ Except.error (Err.unexpected a)) ∧
    (∀ o a, (t.Commit o).1 ≠ Except.error (Err.unexpected a)) := by
  obtain ⟨hdbn, hwsn, hdbk, hws⟩ := reachable_inv ht
  refine ⟨fun p hp => (hws p hp).2.1, ?_, ?_⟩
  · intro k a
    rcases hf : findRec t.writeSet k with _ | r
    · simp only [Txn.Read, hf]
      rcases hfd : findRec t.db k with _ | rec <;> simp [hfd]
    · obtain ⟨-, hact, -, -⟩ := hws (k, r) (findRec_some_mem hf)
      simp only [Txn.Read, hf]
      rcases hact with ha | ha | ha
      · rw [if_neg (show ¬ r.Action = LDelete by rw [ha]; decide), if_pos (Or.inl ha)]
        simp
      · rw [if_pos ha]
        simp
      · rw [if_neg (show ¬ r.Action = LDelete by rw [ha]; decide), if_pos (Or.inr ha)]
        simp
  · intro o a hcon
    rcases commit_cases t o with ⟨-, heq⟩ | ⟨e, bts, heq, hcase⟩ |
      ⟨-, buf1, ebytes, idx, buf2, n, ae, db2, ws2, hcw, hm, hwk, hsy, hap, heq⟩
    · rw [heq] at hcon
      simp at hcon
    · rw [heq] at hcon
      have h2 : Except.error e = Except.error (Err.unexpected a) := hcon
      injection h2 with h3
      subst h3
      rcases hcase with h | h | h <;> simp at h
    · obtain ⟨db2s, happ, -, -, -⟩ := commitApply_spec t.writeSet t.db hdbn hdbk hwsn hws
      rw [happ] at hap
      simp only [Prod.mk.injEq] at hap
      obtain ⟨hae, -, -⟩ := hap
      subst hae
      rw [heq] at hcon
      simp at hcon

/-- C9 witness: the unexpected-action branches at a concrete reachable
state. -/
theorem writeSet_actions_valid_w :
    t1ex.Read [2] ≠ Except.error (Err.unexpected 7) ∧
    (t1ex.Commit okOracle).1 ≠ Except.error (Err.unexpected 7) :=
  ⟨(writeSet_actions_valid t1ex t1ex_reach).2.1 [2] 7,
    (writeSet_actions_valid t1ex t1ex_reach).2.2 okOracle 7⟩

/-- C10: in every reachable engine state, every write-set record's Key
field equals its map key (likewise for db records), a pending Insert's key
is absent from the committed db, and a pending Update's or Delete's key is
present in the committed db (so Commit's Update path always finds an
existing record to overwrite). -/
theorem reachable_state_wf (t : Txn) (ht : Reachable t) :
    (∀ p ∈ t.writeSet, (Prod.snd p).Rec.Key = Prod.fst p) ∧
    (∀ p ∈ t.db, (Prod.snd p).Key = Prod.fst p) ∧
    (∀ p ∈ t.writeSet, (Prod.snd p).Action = LInsert → findRec t.db (Prod.fst p) = none) ∧
    (∀ p ∈ t.writeSet, ((Prod.snd p).Action = LUpdate ∨ (Prod.snd p).Action = LDelete) →
      (findRec t.db (Prod.fst p)).isSome = true) := by
  obtain ⟨-, -, hdbk, hws⟩ := reachable_inv ht
  exact ⟨fun p hp => (hws p hp).1, hdbk, fun p hp => (hws p hp).2.2.1,
    fun p hp => (hws p hp).2.2.2⟩

/-- C10 witness: the pending Delete of key [1] in a reachable state has
its key present in the committed db. -/
theorem reachable_state_wf_w : (findRec t3ex.db [1]).isSome = true := by
  have hmem : ([1], (⟨LDelete, ⟨[1], []⟩⟩ : RecordLog)) ∈ t3ex.writeSet := by
    rw [t3ex_eval]
    exact List.mem_cons_self _ _
  exact (reachable_state_wf t3ex t3ex_reach).2.2.2 ([1], ⟨LDelete, ⟨[1], []⟩⟩) hmem
    (Or.inr rfl)
